import Mathlib

/-!
Verification of the `backup` application core against its natural-language
specification.

The Python source is shallowly embedded: pure fragments become Lean
functions, the orchestration loops become functions returning explicit
event traces, and the outcome of each external effect (staging a chunk,
uploading, deleting a file, ...) is a boolean parameter of the embedding.
Machine integers do not occur (Python integers are unbounded), so `Nat`
is used throughout; Python strings are embedded as `List Char`.
-/

namespace BackupProof

/-! ### Python string comparison

`lexLt a b` embeds Python's `<` on strings: lexicographic comparison by
code point. -/

def lexLt : List Char → List Char → Bool
  | [], [] => false
  | [], _ :: _ => true
  | _ :: _, [] => false
  | a :: as, b :: bs => if a < b then true else if b < a then false else lexLt as bs

theorem lexLt_cons {a b : Char} {as bs : List Char} :
    lexLt (a :: as) (b :: bs) = true ↔ a < b ∨ (a = b ∧ lexLt as bs = true) := by
  rcases lt_trichotomy a b with h | h | h
  · simp [lexLt, h]
  · subst h
    simp [lexLt, lt_irrefl]
  · simp [lexLt, lt_asymm h, h, (ne_of_lt h).symm]

theorem lexLt_irrefl : ∀ l : List Char, lexLt l l = false
  | [] => rfl
  | a :: as => by simp [lexLt, lt_irrefl, lexLt_irrefl as]

theorem lexLt_asymm : ∀ {a b : List Char}, lexLt a b = true → lexLt b a = true → False
  | [], [], h, _ => by simp [lexLt] at h
  | [], _ :: _, _, h2 => by simp [lexLt] at h2
  | _ :: _, [], h1, _ => by simp [lexLt] at h1
  | a :: as, b :: bs, h1, h2 => by
    rw [lexLt_cons] at h1 h2
    rcases h1 with h1 | ⟨rfl, h1⟩
    · rcases h2 with h2 | ⟨rfl, _⟩
      · exact lt_asymm h1 h2
      · exact lt_irrefl _ h1
    · rcases h2 with h2 | ⟨_, h2⟩
      · exact lt_irrefl _ h2
      · exact lexLt_asymm h1 h2

theorem lexLt_trans :
    ∀ {a b c : List Char}, lexLt a b = true → lexLt b c = true → lexLt a c = true
  | [], [], _, h, _ => by simp [lexLt] at h
  | [], _ :: _, [], _, h2 => by simp [lexLt] at h2
  | [], _ :: _, _ :: _, _, _ => rfl
  | _ :: _, [], _, h1, _ => by simp [lexLt] at h1
  | _ :: _, _ :: _, [], _, h2 => by simp [lexLt] at h2
  | a :: as, b :: bs, c :: cs, h1, h2 => by
    rw [lexLt_cons] at h1 h2 ⊢
    rcases h1 with h1 | ⟨rfl, h1⟩
    · rcases h2 with h2 | ⟨rfl, _⟩
      · exact Or.inl (lt_trans h1 h2)
      · exact Or.inl h1
    · rcases h2 with h2 | ⟨rfl, h2⟩
      · exact Or.inl h2
      · exact Or.inr ⟨rfl, lexLt_trans h1 h2⟩

theorem lexLt_trichot :
    ∀ a b : List Char, a = b ∨ lexLt a b = true ∨ lexLt b a = true
  | [], [] => Or.inl rfl
  | [], _ :: _ => Or.inr (Or.inl rfl)
  | _ :: _, [] => Or.inr (Or.inr rfl)
  | a :: as, b :: bs => by
    rcases lt_trichotomy a b with h | rfl | h
    · exact Or.inr (Or.inl (lexLt_cons.mpr (Or.inl h)))
    · rcases lexLt_trichot as bs with rfl | h | h
      · exact Or.inl rfl
      · exact Or.inr (Or.inl (lexLt_cons.mpr (Or.inr ⟨rfl, h⟩)))
      · exact Or.inr (Or.inr (lexLt_cons.mpr (Or.inr ⟨rfl, h⟩)))
    · exact Or.inr (Or.inr (lexLt_cons.mpr (Or.inl h)))

theorem lexLt_append_left :
    ∀ (p x y : List Char), lexLt (p ++ x) (p ++ y) = lexLt x y
  | [], _, _ => rfl
  | c :: p, x, y => by
    simp only [List.cons_append, lexLt, lt_irrefl, if_false]
    exact lexLt_append_left p x y

theorem lexLt_append_of_length_eq :
    ∀ {x y : List Char}, x.length = y.length → lexLt x y = true →
      ∀ s t : List Char, lexLt (x ++ s) (y ++ t) = true
  | [], [], _, h, _, _ => by simp [lexLt] at h
  | [], _ :: _, hl, _, _, _ => by simp at hl
  | _ :: _, [], hl, _, _, _ => by simp at hl
  | a :: as, b :: bs, hl, h, s, t => by
    rw [lexLt_cons] at h
    rcases h with h | ⟨rfl, h⟩
    · exact lexLt_cons.mpr (Or.inl h)
    · exact lexLt_cons.mpr
        (Or.inr ⟨rfl, lexLt_append_of_length_eq (by simpa using hl) h s t⟩)

/-! ### Decimal rendering

`decChars n` embeds Python's `str(n)` for a non-negative integer: the
decimal digits, most significant first.  The auxiliary function carries
fuel so that the definition is structural; fuel `n + 1` always suffices
since the number of digits of `n` is at most `n + 1`. -/

def decCharsAux : Nat → Nat → List Char
  | 0, _ => []
  | fuel + 1, n =>
    if n < 10 then [Nat.digitChar n]
    else decCharsAux fuel (n / 10) ++ [Nat.digitChar (n % 10)]

def decChars (n : Nat) : List Char := decCharsAux (n + 1) n

theorem decCharsAux_of_lt : ∀ fuel n : Nat, n < fuel → decCharsAux fuel n = decChars n
  | 0, n, hn => absurd hn (Nat.not_lt_zero n)
  | fuel + 1, n, hn => by
    by_cases h10 : n < 10
    · simp [decCharsAux, decChars, h10]
    · have hd1 : n / 10 < fuel := by
        have := Nat.div_lt_self (show 0 < n by omega) (show 1 < 10 by norm_num)
        omega
      have hd2 : n / 10 < n := Nat.div_lt_self (by omega) (by norm_num)
      simp only [decChars, decCharsAux, h10, if_false]
      rw [decCharsAux_of_lt fuel (n / 10) hd1, decCharsAux_of_lt n (n / 10) hd2]
termination_by fuel _ _ => fuel

theorem decChars_eq (n : Nat) :
    decChars n =
      if n < 10 then [Nat.digitChar n]
      else decChars (n / 10) ++ [Nat.digitChar (n % 10)] := by
  have base : decCharsAux (n + 1) n =
      if n < 10 then [Nat.digitChar n]
      else decCharsAux n (n / 10) ++ [Nat.digitChar (n % 10)] := rfl
  rw [show decChars n = decCharsAux (n + 1) n from rfl, base]
  by_cases h10 : n < 10
  · rw [if_pos h10, if_pos h10]
  · rw [if_neg h10, if_neg h10,
      decCharsAux_of_lt n (n / 10) (Nat.div_lt_self (by omega) (by norm_num))]

/-- fixed-width decimal rendering, most significant digit first -/
def natChars : Nat → Nat → List Char
  | 0, _ => []
  | w + 1, n => Nat.digitChar (n / 10 ^ w) :: natChars w (n % 10 ^ w)

theorem length_natChars : ∀ (w n : Nat), (natChars w n).length = w
  | 0, _ => rfl
  | w + 1, n => by simp [natChars, length_natChars w]

theorem natChars_succ_append :
    ∀ (w n : Nat), n < 10 ^ (w + 1) →
      natChars (w + 1) n = natChars w (n / 10) ++ [Nat.digitChar (n % 10)]
  | 0, n, h => by
    have hmod : n % 10 = n := Nat.mod_eq_of_lt (by simpa using h)
    simp [natChars, hmod]
  | w + 1, n, _ => by
    have e1 : n / 10 ^ (w + 1) = n / 10 / 10 ^ w := by
      rw [Nat.div_div_eq_div_mul]
      congr 1
      ring
    have e2 : n % 10 ^ (w + 1) / 10 = n / 10 % 10 ^ w := by
      rw [show (10 : Nat) ^ (w + 1) = 10 * 10 ^ w by ring, Nat.mod_mul_right_div_self]
    have e3 : n % 10 ^ (w + 1) % 10 = n % 10 :=
      Nat.mod_mod_of_dvd n ⟨10 ^ w, by ring⟩
    calc natChars (w + 2) n
        = Nat.digitChar (n / 10 ^ (w + 1)) :: natChars (w + 1) (n % 10 ^ (w + 1)) := rfl
      _ = Nat.digitChar (n / 10 ^ (w + 1)) ::
            (natChars w (n % 10 ^ (w + 1) / 10) ++ [Nat.digitChar (n % 10 ^ (w + 1) % 10)]) := by
          rw [natChars_succ_append w (n % 10 ^ (w + 1))
            (Nat.mod_lt _ (Nat.pos_pow_of_pos _ (by norm_num)))]
      _ = Nat.digitChar (n / 10 / 10 ^ w) ::
            (natChars w (n / 10 % 10 ^ w) ++ [Nat.digitChar (n % 10)]) := by
          rw [e1, e2, e3]
      _ = natChars (w + 1) (n / 10) ++ [Nat.digitChar (n % 10)] := rfl

theorem length_decChars_le : ∀ w n : Nat, n < 10 ^ (w + 1) → (decChars n).length ≤ w + 1
  | 0, n, h => by
    rw [decChars_eq n, if_pos (by simpa using h)]
    simp
  | w + 1, n, h => by
    rw [decChars_eq n]
    by_cases h10 : n < 10
    · simp [if_pos h10]
    · have hdiv : n / 10 < 10 ^ (w + 1) := by
        rw [Nat.div_lt_iff_lt_mul (by norm_num)]
        calc n < 10 ^ (w + 2) := h
          _ = 10 ^ (w + 1) * 10 := by ring
      have ih := length_decChars_le w (n / 10) hdiv
      simp only [if_neg h10, List.length_append, List.length_cons, List.length_nil]
      omega

theorem natChars_eq_decChars :
    ∀ w n : Nat, 10 ^ w ≤ n → n < 10 ^ (w + 1) → natChars (w + 1) n = decChars n
  | 0, n, _, hhi => by
    rw [decChars_eq n, if_pos (by simpa using hhi)]
    simp [natChars]
  | w + 1, n, hlo, hhi => by
    have h10 : ¬n < 10 := by
      have h1 : (10 : Nat) ^ 1 ≤ 10 ^ (w + 1) := Nat.pow_le_pow_right (by norm_num) (by omega)
      simp only [pow_one] at h1
      omega
    have hlo' : 10 ^ w ≤ n / 10 := by
      rw [Nat.le_div_iff_mul_le (by norm_num)]
      calc 10 ^ w * 10 = 10 ^ (w + 1) := by ring
        _ ≤ n := hlo
    have hhi' : n / 10 < 10 ^ (w + 1) := by
      rw [Nat.div_lt_iff_lt_mul (by norm_num)]
      calc n < 10 ^ (w + 2) := hhi
        _ = 10 ^ (w + 1) * 10 := by ring
    rw [natChars_succ_append (w + 1) n hhi, decChars_eq n, if_neg h10]
    rw [natChars_eq_decChars w (n / 10) hlo' hhi']

/-- zero-padding on the left to width `w`: embedding of Python `str.zfill(w)` -/
def zfill (w : Nat) (l : List Char) : List Char :=
  List.replicate (w - l.length) '0' ++ l

theorem zfill_decChars :
    ∀ w n : Nat, n < 10 ^ (w + 1) → zfill (w + 1) (decChars n) = natChars (w + 1) n
  | 0, n, h => by
    have h10 : n < 10 := by simpa using h
    rw [decChars_eq n, if_pos h10]
    simp [zfill, natChars, Nat.mod_eq_of_lt h10]
  | w + 1, n, h => by
    by_cases hlo : n < 10 ^ (w + 1)
    · have ih := zfill_decChars w n hlo
      have hlen : (decChars n).length ≤ w + 1 := length_decChars_le w n hlo
      have hdiv0 : n / 10 ^ (w + 1) = 0 := Nat.div_eq_of_lt hlo
      have hmod : n % 10 ^ (w + 1) = n := Nat.mod_eq_of_lt hlo
      rw [show natChars (w + 2) n =
            Nat.digitChar (n / 10 ^ (w + 1)) :: natChars (w + 1) (n % 10 ^ (w + 1)) from rfl,
        hdiv0, hmod, show Nat.digitChar 0 = '0' from rfl, ← ih]
      show List.replicate (w + 2 - (decChars n).length) '0' ++ decChars n =
        '0' :: (List.replicate (w + 1 - (decChars n).length) '0' ++ decChars n)
      rw [show w + 2 - (decChars n).length = (w + 1 - (decChars n).length) + 1 by omega,
        List.replicate_succ, List.cons_append]
    · have heq := natChars_eq_decChars (w + 1) n (by omega) h
      rw [← heq]
      simp [zfill, length_natChars]

theorem digitChar_lt_digitChar {a b : Nat} (hab : a < b) (hb : b < 10) :
    Nat.digitChar a < Nat.digitChar b := by
  have key : ∀ p q : Fin 10, p.val < q.val → Nat.digitChar p.val < Nat.digitChar q.val := by
    decide
  exact key ⟨a, lt_trans hab hb⟩ ⟨b, hb⟩ hab

theorem natChars_lexLt :
    ∀ (w m n : Nat), m < n → n < 10 ^ w → lexLt (natChars w m) (natChars w n) = true
  | 0, m, n, hmn, hn => by
    simp only [pow_zero, Nat.lt_one_iff] at hn
    omega
  | w + 1, m, n, hmn, hn => by
    have hple : m / 10 ^ w ≤ n / 10 ^ w := Nat.div_le_div_right (le_of_lt hmn)
    have hnq : n / 10 ^ w < 10 := by
      rw [Nat.div_lt_iff_lt_mul (Nat.pos_pow_of_pos _ (by norm_num))]
      calc n < 10 ^ (w + 1) := hn
        _ = 10 * 10 ^ w := by ring
    rcases lt_or_eq_of_le hple with hq | hq
    · exact lexLt_cons.mpr (Or.inl (digitChar_lt_digitChar hq hnq))
    · have hm := Nat.div_add_mod m (10 ^ w)
      have hn' := Nat.div_add_mod n (10 ^ w)
      rw [hq] at hm
      have hmod : m % 10 ^ w < n % 10 ^ w := by
        have hlt : 10 ^ w * (n / 10 ^ w) + m % 10 ^ w <
            10 ^ w * (n / 10 ^ w) + n % 10 ^ w := by
          rw [hm, hn']
          exact hmn
        exact Nat.lt_of_add_lt_add_left hlt
      have hmodn : n % 10 ^ w < 10 ^ w := Nat.mod_lt _ (Nat.pos_pow_of_pos _ (by norm_num))
      exact lexLt_cons.mpr (Or.inr ⟨by rw [hq], natChars_lexLt w _ _ hmod hmodn⟩)

/-! ### The chunked upload engine

Embedding of `AzureBlobStorageInterface.upload`
(`src/backup/interfaces/storage/azure.py`).  The submit loop is

    for blob_chunk_offset in range(0, file_size, blob_chunk_size):
        blob_chunk_length = min(blob_chunk_size, file_size - blob_chunk_offset)
        blob_chunk_id = str(blob_chunk_offset).zfill(16)
        blob_chunk_ids.append(blob_chunk_id)
        executor.submit(self.upload_chunk, ...)
    blob_client.commit_block_list(blob_chunk_ids)

`range(0, size, C)` for `C > 0` enumerates `i * C` for
`i < ceil(size / C)`, which is what `chunkOffsets` computes. -/

def chunkCount (size C : Nat) : Nat := (size + C - 1) / C

def chunkOffsets (size C : Nat) : List Nat :=
  (List.range (chunkCount size C)).map (fun i => i * C)

def chunkLen (size C off : Nat) : Nat := min C (size - off)

def chunkLens (size C : Nat) : List Nat :=
  (chunkOffsets size C).map (chunkLen size C)

/-- the chunk identifier `str(blob_chunk_offset).zfill(16)` -/
def chunkId (off : Nat) : List Char := zfill 16 (decChars off)

/-- Result of one `upload` call.  `stagedOffsets` are the offsets whose
`stage_block` call succeeded, `committed` is the argument of the
`commit_block_list` call.  The embedding reflects two facts about the
source: (1) the chunk id is appended to `blob_chunk_ids` in the submit
loop, before the worker runs, so the committed list contains every chunk
id whether or not its staging succeeded; (2) `executor.submit` stores a
worker's exception in a `Future` that the method never reads, and exiting
the `with ThreadPoolExecutor` block only joins the workers, so a failed
`stage_block` does not propagate and control always reaches
`commit_block_list`.  `stageOk off` says whether the `stage_block` call
for the chunk at `off` succeeds. -/
structure UploadResult where
  stagedOffsets : List Nat
  committed : List (List Char)
deriving DecidableEq, Repr

def azureUpload (fileSize chunkSize : Nat) (stageOk : Nat → Bool) : UploadResult :=
  { stagedOffsets := (chunkOffsets fileSize chunkSize).filter stageOk
    committed := (chunkOffsets fileSize chunkSize).map chunkId }

theorem chunkCount_zero {C : Nat} (hC : 0 < C) : chunkCount 0 C = 0 := by
  unfold chunkCount
  exact Nat.div_eq_of_lt (by omega)

theorem chunkCount_pos_eq {S C : Nat} (hC : 0 < C) (hS : 0 < S) :
    chunkCount S C = chunkCount (S - C) C + 1 := by
  unfold chunkCount
  rw [show S + C - 1 = (S - 1) + C by omega, Nat.add_div_right _ hC]
  congr 1
  by_cases hSC : S ≤ C
  · rw [show S - C = 0 by omega]
    rw [Nat.div_eq_of_lt (by omega), Nat.div_eq_of_lt (by omega)]
  · rw [show S - C + C - 1 = S - 1 by omega]

theorem chunkCount_pos {S C : Nat} (hC : 0 < C) (hS : 0 < S) : 0 < chunkCount S C := by
  rw [chunkCount_pos_eq hC hS]
  omega

theorem chunkOffsets_nil {C : Nat} (hC : 0 < C) : chunkOffsets 0 C = [] := by
  simp [chunkOffsets, chunkCount_zero hC]

theorem chunkOffsets_cons {S C : Nat} (hC : 0 < C) (hS : 0 < S) :
    chunkOffsets S C = 0 :: (chunkOffsets (S - C) C).map (fun o => o + C) := by
  unfold chunkOffsets
  rw [chunkCount_pos_eq hC hS, List.range_succ_eq_map]
  simp only [List.map_cons, List.map_map, Nat.zero_mul]
  congr 1
  have hf : ((fun i => i * C) ∘ Nat.succ) = ((fun o => o + C) ∘ fun i => i * C) := by
    funext i
    simp [Nat.succ_mul]
  rw [hf]

theorem length_chunkOffsets (S C : Nat) : (chunkOffsets S C).length = chunkCount S C := by
  simp [chunkOffsets]

theorem chunkLens_sum {C : Nat} (hC : 0 < C) : ∀ S, (chunkLens S C).sum = S := by
  intro S
  induction S using Nat.strong_induction_on with
  | _ S ih =>
    by_cases hS : S = 0
    · subst hS
      simp [chunkLens, chunkOffsets_nil hC]
    · rw [chunkLens, chunkOffsets_cons hC (by omega), List.map_cons, List.map_map]
      have hfun : (chunkLen S C ∘ fun o => o + C) = chunkLen (S - C) C := by
        funext o
        simp only [Function.comp_apply, chunkLen]
        congr 1
        omega
      rw [hfun, show (chunkOffsets (S - C) C).map (chunkLen (S - C) C) = chunkLens (S - C) C
        from rfl, List.sum_cons, ih (S - C) (by omega)]
      simp only [chunkLen, Nat.sub_zero]
      omega

theorem chunkCount_bounds {C : Nat} (hC : 0 < C) :
    ∀ S, 0 < S → C * (chunkCount S C - 1) < S ∧ S ≤ C * chunkCount S C := by
  intro S
  induction S using Nat.strong_induction_on with
  | _ S ih =>
    intro hS
    rw [chunkCount_pos_eq hC hS]
    by_cases hSC : S ≤ C
    · rw [show S - C = 0 by omega, chunkCount_zero hC]
      simp
      omega
    · have hpos : 0 < S - C := by omega
      obtain ⟨ih1, ih2⟩ := ih (S - C) (by omega) hpos
      have hcpos : 0 < chunkCount (S - C) C := chunkCount_pos hC hpos
      generalize hk : chunkCount (S - C) C = k at ih1 ih2 hcpos ⊢
      obtain ⟨k', rfl⟩ : ∃ k', k = k' + 1 := ⟨k - 1, by omega⟩
      simp only [Nat.add_sub_cancel] at ih1 ⊢
      have e1 : C * (k' + 1) = C * k' + C := by ring
      have e2 : C * (k' + 1 + 1) = C * (k' + 1) + C := by ring
      omega

theorem chunkOffsets_pairwise {S C : Nat} (hC : 0 < C) :
    (chunkOffsets S C).Pairwise (· < ·) := by
  unfold chunkOffsets
  exact List.Pairwise.map _ (fun a b hab => by
    exact (Nat.mul_lt_mul_right hC).mpr hab) (List.pairwise_lt_range _)

theorem chunkOffsets_lt_size {S C o : Nat} (hC : 0 < C) (ho : o ∈ chunkOffsets S C) :
    o < S := by
  simp only [chunkOffsets, List.mem_map, List.mem_range] at ho
  obtain ⟨i, hi, rfl⟩ := ho
  have hcnt : 0 < chunkCount S C := by omega
  have hS : 0 < S := by
    by_contra hS0
    rw [show S = 0 by omega, chunkCount_zero hC] at hcnt
    omega
  obtain ⟨h1, _⟩ := chunkCount_bounds hC S hS
  calc i * C ≤ (chunkCount S C - 1) * C := Nat.mul_le_mul_right C (by omega)
    _ = C * (chunkCount S C - 1) := Nat.mul_comm _ _
    _ < S := h1

theorem chunkId_lexLt {m n : Nat} (hmn : m < n) (hn : n < 10 ^ 16) :
    lexLt (chunkId m) (chunkId n) = true := by
  have hm : m < 10 ^ 16 := lt_trans hmn hn
  show lexLt (zfill (15 + 1) (decChars m)) (zfill (15 + 1) (decChars n)) = true
  rw [zfill_decChars 15 m hm, zfill_decChars 15 n hn]
  exact natChars_lexLt 16 m n hmn hn

theorem chunkLens_last {S C : Nat} (hC : 0 < C) (hS : 0 < S) :
    (chunkLens S C).getD (chunkCount S C - 1) 0 = S - C * (chunkCount S C - 1) := by
  have hlen : (chunkLens S C).length = chunkCount S C := by
    simp [chunkLens, chunkOffsets]
  have hcpos : 0 < chunkCount S C := chunkCount_pos hC hS
  have hidx : chunkCount S C - 1 < (chunkLens S C).length := by omega
  rw [List.getD_eq_getElem?_getD, List.getElem?_eq_getElem hidx]
  simp only [Option.getD_some, chunkLens, chunkOffsets, List.getElem_map, List.getElem_range,
    chunkLen]
  obtain ⟨h1, h2⟩ := chunkCount_bounds hC S hS
  generalize hk : chunkCount S C = k at h1 h2 hcpos ⊢
  obtain ⟨k', rfl⟩ : ∃ k', k = k' + 1 := ⟨k - 1, by omega⟩
  simp only [Nat.add_sub_cancel] at h1 h2 ⊢
  have e1 : C * (k' + 1) = C * k' + C := by ring
  have e2 : k' * C = C * k' := Nat.mul_comm _ _
  omega

/-! ### Retention policy

Embedding of the default `StorageInterface.retention`
(`src/backup/interfaces/interface.py`):

    for i, item in enumerate(self.list(path=path)):
        if i >= config.count:
            self.delete(item)

`entries` is the value of `self.list(path)`; `retentionDeleted` is the
list of entries passed to `self.delete`, in deletion order. -/

def retentionAux {α : Type} (count : Nat) : Nat → List α → List α
  | _, [] => []
  | i, e :: rest =>
    if count ≤ i then e :: retentionAux count (i + 1) rest
    else retentionAux count (i + 1) rest

def retentionDeleted {α : Type} (entries : List α) (count : Nat) : List α :=
  retentionAux count 0 entries

theorem retentionAux_eq_drop {α : Type} (K : Nat) :
    ∀ (l : List α) (i : Nat), retentionAux K i l = l.drop (K - i)
  | [], i => by simp [retentionAux]
  | e :: rest, i => by
    simp only [retentionAux]
    by_cases h : K ≤ i
    · rw [if_pos h, retentionAux_eq_drop K rest (i + 1),
        show K - i = 0 by omega, show K - (i + 1) = 0 by omega]
      simp
    · rw [if_neg h, retentionAux_eq_drop K rest (i + 1),
        show K - i = (K - (i + 1)) + 1 by omega]
      simp

theorem retentionDeleted_eq_drop {α : Type} (l : List α) (K : Nat) :
    retentionDeleted l K = l.drop K := by
  unfold retentionDeleted
  rw [retentionAux_eq_drop K l 0]
  simp

/-! ### Registry resolution and the job orchestrator

Embedding of `get_class` (`src/backup/utils.py`) and `run_backup`
(`src/backup/run.py`) / `run_backups` (`src/backup/app.py`).

`get_class` does `module_path, class_name = cls.rsplit(".", 1)` (a
missing separator makes the unpacking raise `ValueError`), imports the
module (raising `ImportError` when it cannot be imported) and requires
`hasattr(module, class_name)` (raising `ImportError` otherwise).  The
module system is abstracted as `env`, a table mapping a module path to
the list of attribute names the module exposes. -/

/-- split at the last occurrence of `sep`: Python `s.rsplit(sep, 1)`
when it returns two parts, `none` when `sep` does not occur. -/
def rsplitLast (s : List Char) (sep : Char) : Option (List Char × List Char) :=
  match s.reverse.dropWhile (fun c => c != sep) with
  | [] => none
  | _ :: restRev =>
    some (restRev.reverse, (s.reverse.takeWhile (fun c => c != sep)).reverse)

inductive GetClassErr
  /-- `cls.rsplit(".", 1)` returned a single part: tuple unpacking raises `ValueError` -/
  | valueError
  /-- `importlib.import_module` failed: `ImportError` -/
  | moduleNotFound
  /-- `hasattr(module, class_name)` is false: `ImportError` -/
  | classNotFound
deriving DecidableEq, Repr

def get_class (env : List (List Char × List (List Char))) (cls : List Char) :
    Except GetClassErr (List Char) :=
  match rsplitLast cls '.' with
  | none => Except.error GetClassErr.valueError
  | some (modulePath, className) =>
    match env.lookup modulePath with
    | none => Except.error GetClassErr.moduleNotFound
    | some attrs =>
      if className ∈ attrs then Except.ok cls
      else Except.error GetClassErr.classNotFound

/-- One entry of `config.interfaces`.  `validateFails` / `backupFails`
say whether `instance.validate()` / `instance.backup()` raises when
called on the instance built from this configuration. -/
structure IfaceCfg where
  interface : List Char
  enabled : Bool
  validateFails : Bool
  backupFails : Bool
deriving DecidableEq, Repr

structure JobConfig where
  enabled : Bool
  storage : List Char
  interfaces : List IfaceCfg
deriving DecidableEq, Repr

/-- the first filter loop of `run_backup`: disabled interfaces are
dropped (with a log line) before anything is resolved or instantiated -/
def enabledConfigs (interfaces : List IfaceCfg) : List IfaceCfg :=
  interfaces.filter (·.enabled)

/-- the resolution/instantiation loop of `run_backup`: `get_class` is
called for each enabled config in order; an exception propagates
immediately (nothing catches it), so the first error aborts the job -/
def resolveAll (env : List (List Char × List (List Char))) :
    List IfaceCfg → Option GetClassErr
  | [] => none
  | c :: rest =>
    match get_class env c.interface with
    | Except.error e => some e
    | Except.ok _ => resolveAll env rest

def failsInst (c : IfaceCfg) : Bool := c.validateFails || c.backupFails

/-- Outcome of the validate/backup loop of `run_backup`.  `attempted`
lists the instances on which `instance.validate()` was invoked (when
`validateFails = false` the same try body then invokes
`instance.backup()`); `logged` lists the instances whose exception was
caught and logged under `BACKUP_GRACEFUL_ERRORS`; `raised` says whether
an exception propagated out of the loop. -/
structure RunOutcome where
  attempted : List IfaceCfg
  logged : List IfaceCfg
  raised : Bool
deriving DecidableEq, Repr

/-- the final loop of `run_backup`:

    for instance in instances:
        try:
            instance.validate()
            instance.backup()
        except Exception as exc:
            if settings.BACKUP_GRACEFUL_ERRORS: logger.error(...)
            else: raise
-/
def runInstances (graceful : Bool) : List IfaceCfg → RunOutcome
  | [] => ⟨[], [], false⟩
  | inst :: rest =>
    if failsInst inst then
      if graceful then
        let r := runInstances graceful rest
        ⟨inst :: r.attempted, inst :: r.logged, r.raised⟩
      else ⟨[inst], [], true⟩
    else
      let r := runInstances graceful rest
      ⟨inst :: r.attempted, r.logged, r.raised⟩

inductive RunErr
  /-- `get_class(cls=config.storage.interface)` raised -/
  | storageResolve (e : GetClassErr)
  /-- `get_class(cls=config.interface)` raised for an enabled source -/
  | interfaceResolve (e : GetClassErr)
  /-- a source's `validate()`/`backup()` raised with graceful errors off -/
  | sourceException
deriving DecidableEq, Repr

/-- Embedding of `run_backup`: storage resolution, the enabled filter,
the per-interface resolution loop, then the validate/backup loop. -/
def run_backup (env : List (List Char × List (List Char))) (graceful : Bool)
    (cfg : JobConfig) : RunOutcome × Option RunErr :=
  match get_class env cfg.storage with
  | Except.error e => (⟨[], [], false⟩, some (RunErr.storageResolve e))
  | Except.ok _ =>
    match resolveAll env (enabledConfigs cfg.interfaces) with
    | some e => (⟨[], [], false⟩, some (RunErr.interfaceResolve e))
    | none =>
      let r := runInstances graceful (enabledConfigs cfg.interfaces)
      (r, if r.raised then some RunErr.sourceException else none)

/-- Embedding of `run_backups` (`src/backup/app.py`): when the top-level
`enabled` flag is false, `run_backup` is not called at all. -/
def run_backups (env : List (List Char × List (List Char))) (graceful : Bool)
    (cfg : JobConfig) : RunOutcome × Option RunErr :=
  if cfg.enabled then run_backup env graceful cfg else (⟨[], [], false⟩, none)

theorem runInstances_graceful :
    ∀ l : List IfaceCfg, runInstances true l = ⟨l, l.filter failsInst, false⟩
  | [] => rfl
  | inst :: rest => by
    simp only [runInstances, runInstances_graceful rest, List.filter_cons]
    by_cases h : failsInst inst
    · simp [h]
    · simp [h]

theorem runInstances_strict_ok :
    ∀ l : List IfaceCfg, l.all (fun c => !failsInst c) = true →
      runInstances false l = ⟨l, [], false⟩
  | [], _ => rfl
  | inst :: rest, h => by
    simp only [List.all_cons, Bool.and_eq_true, Bool.not_eq_true'] at h
    simp only [runInstances, h.1, Bool.false_eq_true, if_false,
      runInstances_strict_ok rest h.2]

theorem runInstances_strict_fail :
    ∀ l : List IfaceCfg, l.any failsInst = true →
      runInstances false l = ⟨l.take (l.findIdx failsInst + 1), [], true⟩
  | inst :: rest, h => by
    by_cases hf : failsInst inst
    · simp [runInstances, hf, List.findIdx_cons]
    · have hrest : rest.any failsInst = true := by
        simp only [List.any_cons, hf, Bool.false_or] at h
        exact h
      simp [runInstances, hf, List.findIdx_cons, runInstances_strict_fail rest hrest]

theorem resolveAll_error_of_mem {env : List (List Char × List (List Char))}
    {e : GetClassErr} :
    ∀ {l : List IfaceCfg} {c : IfaceCfg}, c ∈ l →
      get_class env c.interface = Except.error e →
      ∃ e', resolveAll env l = some e'
  | d :: rest, c, hmem, herr => by
    rcases List.mem_cons.mp hmem with rfl | hmem'
    · exact ⟨e, by simp [resolveAll, herr]⟩
    · unfold resolveAll
      match hd : get_class env d.interface with
      | Except.error e'' => exact ⟨e'', rfl⟩
      | Except.ok _ => exact resolveAll_error_of_mem hmem' herr

/-! ### Sink listing order

Embedding of the sort in `LocalStorageInterface.list` and
`AzureBlobStorageInterface.list`:

    sorted(files, key=lambda f: os.path.splitext(f)[0].lower(), reverse=True)

`files` stands for the enumeration the sort is applied to (for the local
sink, `[os.path.join(path, i) for i in os.listdir(path)]`, whose order
`os.listdir` leaves arbitrary; for azure, the blob names).  Python's
sort is stable and `reverse=True` flips comparisons while keeping
entries with equal keys in enumeration order; a stable sort's output is
uniquely determined by the comparator and the input order, and
`List.insertionSort` with the reflexive relation `keyGe` is exactly such
a stable descending sort, so the two agree. -/

/-- everything before the last dot, the whole string when there is no
dot: `os.path.splitext(f)[0]` for any `f` whose last dot is a non-leading
dot of its final path component (true of every name considered here) -/
def splitextFst (l : List Char) : List Char :=
  match l.reverse.dropWhile (fun c => c != '.') with
  | [] => l
  | _ :: restRev => restRev.reverse

/-- the sort key `os.path.splitext(f)[0].lower()` -/
def sortKey (l : List Char) : List Char := (splitextFst l).map Char.toLower

/-- `a` may precede `b` in the descending listing: key of `a` is not
less than key of `b` -/
def keyGe (a b : List Char) : Prop := lexLt (sortKey a) (sortKey b) = false

/-- strict version: key of `a` is greater than key of `b` -/
def keyGt (a b : List Char) : Prop := lexLt (sortKey b) (sortKey a) = true

instance : DecidableRel keyGe := fun a b =>
  inferInstanceAs (Decidable (lexLt (sortKey a) (sortKey b) = false))

instance : DecidableRel keyGt := fun a b =>
  inferInstanceAs (Decidable (lexLt (sortKey b) (sortKey a) = true))

theorem lexLt_false_of_true {x y : List Char} (h : lexLt x y = true) :
    lexLt y x = false := by
  cases hyx : lexLt y x with
  | false => rfl
  | true => exact (lexLt_asymm h hyx).elim

instance : IsTotal (List Char) keyGe :=
  ⟨fun a b => by
    unfold keyGe
    rcases lexLt_trichot (sortKey a) (sortKey b) with h | h | h
    · exact Or.inl (by rw [h, lexLt_irrefl])
    · exact Or.inr (lexLt_false_of_true h)
    · exact Or.inl (lexLt_false_of_true h)⟩

instance : IsTrans (List Char) keyGe :=
  ⟨fun a b c hab hbc => by
    unfold keyGe at *
    rcases Bool.eq_false_or_eq_true (lexLt (sortKey a) (sortKey c)) with hac | hac
    · exfalso
      rcases lexLt_trichot (sortKey a) (sortKey b) with heq | hlt | hgt
      · rw [heq] at hac
        rw [hbc] at hac
        exact Bool.false_ne_true hac
      · rw [hab] at hlt
        exact Bool.false_ne_true hlt
      · have htr := lexLt_trans hgt hac
        rw [hbc] at htr
        exact Bool.false_ne_true htr
    · exact hac⟩

instance : IsAntisymm (List Char) keyGt :=
  ⟨fun _ _ h1 h2 => (lexLt_asymm h1 h2).elim⟩

/-- the sorted listing, as a function of the underlying enumeration -/
def localList (files : List (List Char)) : List (List Char) :=
  List.insertionSort keyGe files

/-- `AzureBlobStorageInterface.list` additionally drops the blob equal
to the listed path itself before sorting -/
def azureList (path : List Char) (blobNames : List (List Char)) : List (List Char) :=
  localList (blobNames.filter (fun b => b != path))

theorem splitextFst_append {a e : List Char} (he : '.' ∈ e) :
    splitextFst (a ++ e) = a ++ splitextFst e := by
  have hne : e.reverse.dropWhile (fun c => c != '.') ≠ [] := by
    rw [Ne, List.dropWhile_eq_nil_iff]
    push_neg
    exact ⟨'.', List.mem_reverse.mpr he, by simp⟩
  unfold splitextFst
  rw [List.reverse_append, List.dropWhile_append,
    if_neg (by simpa [List.isEmpty_iff] using hne)]
  cases hdw : e.reverse.dropWhile (fun c => c != '.') with
  | nil => exact absurd hdw hne
  | cons d rest => simp [List.reverse_append]

/-! ### Backup names and timestamps

Embedding of `get_backup_name` (`src/backup/utils.py`):

    timestamp = datetime.datetime.now().strftime("%Y-%m-%dT%H-%M-%S")
    name = "_".join([base, timestamp])

For a `datetime` value, `strftime` renders `%m %d %H %M %S` as
zero-padded two-digit decimals and `%Y` as the four-digit year (every
`now()` year lies in 1000..9999), which is exactly `natChars`.
`tsFormatWith` generalises over the literal date/time separator so the
same reasoning applies to the string after `str.lower()` maps `'T'` to
`'t'`. -/

structure Timestamp where
  year : Nat
  month : Nat
  day : Nat
  hour : Nat
  minute : Nat
  second : Nat
deriving DecidableEq, Repr

/-- the bounds a `datetime.datetime.now()` value always satisfies (only
the bounds that give each `strftime` field its nominal width are needed) -/
def Timestamp.Valid (t : Timestamp) : Prop :=
  1000 ≤ t.year ∧ t.year < 10000 ∧ t.month < 100 ∧ t.day < 100 ∧
    t.hour < 100 ∧ t.minute < 100 ∧ t.second < 100

def tsFormatWith (sep : Char) (t : Timestamp) : List Char :=
  natChars 4 t.year ++ ['-'] ++ natChars 2 t.month ++ ['-'] ++ natChars 2 t.day ++
    [sep] ++ natChars 2 t.hour ++ ['-'] ++ natChars 2 t.minute ++ ['-'] ++
    natChars 2 t.second

/-- `strftime("%Y-%m-%dT%H-%M-%S")` -/
def tsFormat (t : Timestamp) : List Char := tsFormatWith 'T' t

/-- `get_backup_name(base)` at the instant `t` -/
def get_backup_name (base : List Char) (t : Timestamp) : List Char :=
  base ++ ['_'] ++ tsFormat t

/-- the name under which the backup of `t` is listed: the destination
directory prefix (`os.path.join` output), the generated name, and the
archive extension (`"." + extension` appended by `backup()`) -/
def listedName (dir base : List Char) (t : Timestamp) (ext : List Char) : List Char :=
  dir ++ get_backup_name base t ++ ext

/-- chronological order at second granularity -/
def tsLt (t1 t2 : Timestamp) : Prop :=
  t1.year < t2.year ∨ (t1.year = t2.year ∧
    (t1.month < t2.month ∨ (t1.month = t2.month ∧
      (t1.day < t2.day ∨ (t1.day = t2.day ∧
        (t1.hour < t2.hour ∨ (t1.hour = t2.hour ∧
          (t1.minute < t2.minute ∨ (t1.minute = t2.minute ∧
            t1.second < t2.second)))))))))

instance (t1 t2 : Timestamp) : Decidable (tsLt t1 t2) := by
  unfold tsLt
  infer_instance

theorem digitChar_toLower {d : Nat} (hd : d < 10) :
    (Nat.digitChar d).toLower = Nat.digitChar d := by
  have key : ∀ p : Fin 10, (Nat.digitChar p.val).toLower = Nat.digitChar p.val := by decide
  exact key ⟨d, hd⟩

theorem map_toLower_natChars :
    ∀ (w n : Nat), n < 10 ^ w → (natChars w n).map Char.toLower = natChars w n
  | 0, _, _ => rfl
  | w + 1, n, h => by
    have hq : n / 10 ^ w < 10 := by
      rw [Nat.div_lt_iff_lt_mul (Nat.pos_pow_of_pos _ (by norm_num))]
      calc n < 10 ^ (w + 1) := h
        _ = 10 * 10 ^ w := by ring
    have hm : n % 10 ^ w < 10 ^ w := Nat.mod_lt _ (Nat.pos_pow_of_pos _ (by norm_num))
    simp only [natChars, List.map_cons, digitChar_toLower hq,
      map_toLower_natChars w (n % 10 ^ w) hm]

theorem length_tsFormatWith (sep : Char) (t : Timestamp) :
    (tsFormatWith sep t).length = 19 := by
  simp [tsFormatWith, length_natChars]

theorem tsFormatWith_lexLt (sep : Char) {t1 t2 : Timestamp}
    (v1 : t1.Valid) (v2 : t2.Valid) (h : tsLt t1 t2) :
    lexLt (tsFormatWith sep t1) (tsFormatWith sep t2) = true := by
  obtain ⟨_, hy1, hmo1, hd1, hh1, hmi1, hs1⟩ := v1
  obtain ⟨_, hy2, hmo2, hd2, hh2, hmi2, hs2⟩ := v2
  have e4 : (10000 : Nat) = 10 ^ 4 := by norm_num
  have e2 : (100 : Nat) = 10 ^ 2 := by norm_num
  rw [e4] at hy2
  rw [e2] at hmo2 hd2 hh2 hmi2 hs2
  unfold tsFormatWith
  simp only [List.append_assoc]
  rcases h with hy | ⟨ey, h⟩
  · exact lexLt_append_of_length_eq (by rw [length_natChars, length_natChars])
      (natChars_lexLt 4 _ _ hy hy2) _ _
  rw [ey, lexLt_append_left, lexLt_append_left]
  rcases h with hmo | ⟨emo, h⟩
  · exact lexLt_append_of_length_eq (by rw [length_natChars, length_natChars])
      (natChars_lexLt 2 _ _ hmo hmo2) _ _
  rw [emo, lexLt_append_left, lexLt_append_left]
  rcases h with hd | ⟨ed, h⟩
  · exact lexLt_append_of_length_eq (by rw [length_natChars, length_natChars])
      (natChars_lexLt 2 _ _ hd hd2) _ _
  rw [ed, lexLt_append_left, lexLt_append_left]
  rcases h with hh | ⟨eh, h⟩
  · exact lexLt_append_of_length_eq (by rw [length_natChars, length_natChars])
      (natChars_lexLt 2 _ _ hh hh2) _ _
  rw [eh, lexLt_append_left, lexLt_append_left]
  rcases h with hmi | ⟨emi, h⟩
  · exact lexLt_append_of_length_eq (by rw [length_natChars, length_natChars])
      (natChars_lexLt 2 _ _ hmi hmi2) _ _
  rw [emi, lexLt_append_left, lexLt_append_left]
  exact natChars_lexLt 2 _ _ h hs2

theorem map_toLower_tsFormat {t : Timestamp} (v : t.Valid) :
    (tsFormatWith 'T' t).map Char.toLower = tsFormatWith 't' t := by
  obtain ⟨_, hy, hmo, hd, hh, hmi, hs⟩ := v
  have e4 : (10000 : Nat) = 10 ^ 4 := by norm_num
  have e2 : (100 : Nat) = 10 ^ 2 := by norm_num
  rw [e4] at hy
  rw [e2] at hmo hd hh hmi hs
  have hdash : ('-').toLower = '-' := by decide
  have hT : ('T').toLower = 't' := by decide
  unfold tsFormatWith
  simp only [List.map_append, List.map_cons, List.map_nil, hdash, hT,
    map_toLower_natChars 4 _ hy, map_toLower_natChars 2 _ hmo,
    map_toLower_natChars 2 _ hd, map_toLower_natChars 2 _ hh,
    map_toLower_natChars 2 _ hmi, map_toLower_natChars 2 _ hs]

theorem backup_name_key_lt {dir base ext : List Char} {t1 t2 : Timestamp}
    (v1 : t1.Valid) (v2 : t2.Valid) (h : tsLt t1 t2) (hdot : '.' ∈ ext) :
    lexLt (sortKey (listedName dir base t1 ext))
      (sortKey (listedName dir base t2 ext)) = true := by
  unfold listedName get_backup_name tsFormat sortKey
  rw [splitextFst_append hdot, splitextFst_append hdot]
  simp only [List.map_append, List.append_assoc, List.map_cons, List.map_nil]
  rw [lexLt_append_left, lexLt_append_left, lexLt_append_left]
  rw [show (List.map Char.toLower (tsFormatWith 'T' t1)) = tsFormatWith 't' t1 from
    map_toLower_tsFormat v1,
    show (List.map Char.toLower (tsFormatWith 'T' t2)) = tsFormatWith 't' t2 from
    map_toLower_tsFormat v2]
  exact lexLt_append_of_length_eq
    (by rw [length_tsFormatWith, length_tsFormatWith]) (tsFormatWith_lexLt 't' v1 v2 h) _ _

/-! ### Directory backup cleanup

Embedding of one directory iteration of
`LocalDirectoryBackupInterface.backup`
(`src/backup/interfaces/directories/local.py`) and of
`SSHDirectoryBackupInterface.backup`
(`src/backup/interfaces/directories/ssh.py`).

In the local variant the statements run in order: `self.archive(...)`,
the `exists`/`create` pair, `self.storage.upload(...)` inside a `with
open(...)` block, then `os.remove(archive)`, then the optional
retention call.  There is no `try`/`finally`: an exception from `upload`
propagates and `os.remove` is never reached, and an exception from
`os.remove` itself propagates and aborts the backup.

In the ssh variant only `sftp.close()` is in a `finally`; the remote
`rm` runs after the `try` block, so an `upload` exception propagates
before it.  The `rm` is issued with `exec_command` and its exit status
is fetched but never inspected, so a failing remote `rm` never raises.

`uploadFails` / `removeFails` say whether the upload call raises and
whether the archive deletion fails; the result is the ordered list of
performed steps plus whether the iteration raised. -/

inductive BStep
  | archiveStep
  | ensureDst
  | uploadStep
  | removeArchive
  | retentionStep
deriving DecidableEq, Repr

def localBackupOne (uploadFails removeFails retentionConfigured : Bool) :
    List BStep × Bool :=
  if uploadFails then ([BStep.archiveStep, BStep.ensureDst, BStep.uploadStep], true)
  else if removeFails then
    ([BStep.archiveStep, BStep.ensureDst, BStep.uploadStep, BStep.removeArchive], true)
  else
    ([BStep.archiveStep, BStep.ensureDst, BStep.uploadStep, BStep.removeArchive] ++
      (if retentionConfigured then [BStep.retentionStep] else []), false)

def sshBackupOne (uploadFails _removeFails retentionConfigured : Bool) :
    List BStep × Bool :=
  if uploadFails then ([BStep.archiveStep, BStep.ensureDst, BStep.uploadStep], true)
  else
    ([BStep.archiveStep, BStep.ensureDst, BStep.uploadStep, BStep.removeArchive] ++
      (if retentionConfigured then [BStep.retentionStep] else []), false)

theorem runInstances_attempted_subset (g : Bool) :
    ∀ l : List IfaceCfg, (runInstances g l).attempted ⊆ l
  | [] => by simp [runInstances]
  | inst :: rest => by
    intro x hx
    unfold runInstances at hx
    by_cases hf : failsInst inst
    · cases g with
      | false =>
        simp only [hf, if_true, Bool.false_eq_true, if_false] at hx
        simp only [List.mem_singleton] at hx
        exact hx ▸ List.mem_cons_self inst rest
      | true =>
        simp only [hf, if_true] at hx
        rcases List.mem_cons.mp hx with rfl | hx'
        · exact List.mem_cons_self x rest
        · exact List.mem_cons_of_mem inst (runInstances_attempted_subset true rest hx')
    · simp only [hf, Bool.false_eq_true, if_false] at hx
      rcases List.mem_cons.mp hx with rfl | hx'
      · exact List.mem_cons_self x rest
      · exact List.mem_cons_of_mem inst (runInstances_attempted_subset g rest hx')

/-! ### The claims -/

/-- C1: the claim states that when at least one chunk fails to stage,
`upload` propagates the first worker's exception and
`commit_block_list` is never called with a partial list.  The code does
the opposite: worker exceptions are stored in futures that are never
read, so for a 100-byte file with chunk size 25 whose chunk at offset 25
fails to stage, the staged set lacks offset 25 while
`commit_block_list` is still called, with all four chunk ids. -/
theorem C1_commit_called_despite_failed_stage :
    (azureUpload 100 25 (fun off => off != 25)).stagedOffsets = [0, 50, 75] ∧
    (azureUpload 100 25 (fun off => off != 25)).committed =
      [chunkId 0, chunkId 25, chunkId 50, chunkId 75] := by
  decide

/-- C2, counterexample: for file size 0 the claim asserts a minimum of
one chunk; `range(0, 0, 25)` is empty, so zero chunks are created and
the commit receives an empty id list. -/
theorem C2_size_zero_counterexample :
    (chunkOffsets 0 25).length = 0 ∧ (chunkOffsets 0 25).length ≠ 1 ∧
    (azureUpload 0 25 (fun _ => true)).committed = [] := by
  decide

/-- C2 (amended): for chunk size C > 0 the upload partitions `[0, S)`
into `ceil(S/C)` consecutive chunks of length `min(C, S - offset)` —
zero chunks when S = 0, with no minimum of one — their lengths sum to S
exactly, and for S > 0 the last chunk's length is `S - C*(count-1)`. -/
theorem C2_chunk_partition (S C : Nat) (hC : 0 < C) :
    (chunkOffsets S C).length = (S + C - 1) / C ∧
    (chunkLens S C).sum = S ∧
    (0 < S →
      (chunkLens S C).getD (chunkCount S C - 1) 0 = S - C * (chunkCount S C - 1)) := by
  refine ⟨?_, chunkLens_sum hC S, fun hS => chunkLens_last hC hS⟩
  rw [length_chunkOffsets]
  rfl

theorem C2_chunk_partition_witness :
    (chunkOffsets 100 25).length = (100 + 25 - 1) / 25 ∧
    (chunkLens 100 25).sum = 100 ∧
    (0 < 100 →
      (chunkLens 100 25).getD (chunkCount 100 25 - 1) 0 =
        100 - 25 * (chunkCount 100 25 - 1)) :=
  C2_chunk_partition 100 25 (by norm_num)

/-- C3, counterexample: the identifiers are only fixed-width for offsets
below 10^16.  With chunk size 9·10^15 and file size 27·10^15 the upload
commits the ids of offsets 0, 9·10^15 and 18·10^15 in that order; the
offsets ascend, but the id of 9·10^15 (16 digits starting with '9') is
lexicographically greater than the id of 18·10^15 (17 digits starting
with '1'), so lexicographic id order disagrees with numeric offset
order. -/
theorem C3_big_offset_counterexample :
    (azureUpload (27 * 10 ^ 15) (9 * 10 ^ 15) (fun _ => true)).committed =
      [chunkId 0, chunkId (9 * 10 ^ 15), chunkId (18 * 10 ^ 15)] ∧
    9 * 10 ^ 15 < 18 * 10 ^ 15 ∧
    lexLt (chunkId (9 * 10 ^ 15)) (chunkId (18 * 10 ^ 15)) = false ∧
    lexLt (chunkId (18 * 10 ^ 15)) (chunkId (9 * 10 ^ 15)) = true := by
  decide

/-- C3 (amended): the committed id list is the chunk ids of the offsets
in strictly ascending offset order, independent of worker completion
order (the ids are recorded in the submit loop, not by the workers); and
for uploads of size at most 10^16 — where `zfill(16)` really is fixed
width — lexicographic id order agrees with offset order, i.e. the
committed list is strictly lexicographically ascending. -/
theorem C3_commit_ascending (S C : Nat) (stageOk : Nat → Bool) (hC : 0 < C)
    (hS : S ≤ 10 ^ 16) :
    (azureUpload S C stageOk).committed = (chunkOffsets S C).map chunkId ∧
    (chunkOffsets S C).Pairwise (· < ·) ∧
    (azureUpload S C stageOk).committed.Pairwise (fun a b => lexLt a b = true) := by
  refine ⟨rfl, chunkOffsets_pairwise hC, ?_⟩
  show ((chunkOffsets S C).map chunkId).Pairwise _
  have hbound : (chunkOffsets S C).Pairwise (fun a b => a < b ∧ b < 10 ^ 16) := by
    refine List.Pairwise.imp_of_mem ?_ (chunkOffsets_pairwise hC)
    intro a b _ hb hab
    exact ⟨hab, lt_of_lt_of_le (chunkOffsets_lt_size hC hb) hS⟩
  exact List.Pairwise.map _ (fun a b hab => chunkId_lexLt hab.1 hab.2) hbound

theorem C3_commit_ascending_witness :
    (azureUpload 100 25 (fun _ => true)).committed =
      (chunkOffsets 100 25).map chunkId ∧
    (chunkOffsets 100 25).Pairwise (· < ·) ∧
    (azureUpload 100 25 (fun _ => true)).committed.Pairwise
      (fun a b => lexLt a b = true) :=
  C3_commit_ascending 100 25 (fun _ => true) (by norm_num) (by norm_num)

/-- C4: the default retention deletes exactly the entries at list
positions ≥ K of the sink's listing — the listing is the concatenation
of the kept prefix `take K` and the deleted suffix `drop K` — so with N
entries and K < N exactly N−K entries are deleted, and with K ≥ N none
are. -/
theorem C4_retention_drops_positions_ge_count (entries : List (List Char)) (K : Nat) :
    retentionDeleted entries K = entries.drop K ∧
    entries.take K ++ retentionDeleted entries K = entries ∧
    (K < entries.length → (retentionDeleted entries K).length = entries.length - K) ∧
    (entries.length ≤ K → retentionDeleted entries K = []) := by
  refine ⟨retentionDeleted_eq_drop entries K, ?_, fun _ => ?_, fun h => ?_⟩
  · rw [retentionDeleted_eq_drop, List.take_append_drop]
  · rw [retentionDeleted_eq_drop, List.length_drop]
  · rw [retentionDeleted_eq_drop]
    exact List.drop_eq_nil_of_le h

theorem C4_retention_witness :
    retentionDeleted [("e5").data, ("e4").data, ("e3").data, ("e2").data,
        ("e1").data] 3 =
      [("e5").data, ("e4").data, ("e3").data, ("e2").data, ("e1").data].drop 3 ∧
    [("e5").data, ("e4").data, ("e3").data, ("e2").data, ("e1").data].take 3 ++
        retentionDeleted [("e5").data, ("e4").data, ("e3").data, ("e2").data,
          ("e1").data] 3 =
      [("e5").data, ("e4").data, ("e3").data, ("e2").data, ("e1").data] ∧
    (3 < ([("e5").data, ("e4").data, ("e3").data, ("e2").data,
        ("e1").data] : List (List Char)).length →
      (retentionDeleted [("e5").data, ("e4").data, ("e3").data, ("e2").data,
        ("e1").data] 3).length =
        ([("e5").data, ("e4").data, ("e3").data, ("e2").data,
          ("e1").data] : List (List Char)).length - 3) ∧
    (([("e5").data, ("e4").data, ("e3").data, ("e2").data,
        ("e1").data] : List (List Char)).length ≤ 3 →
      retentionDeleted [("e5").data, ("e4").data, ("e3").data, ("e2").data,
        ("e1").data] 3 = []) :=
  C4_retention_drops_positions_ge_count
    [("e5").data, ("e4").data, ("e3").data, ("e2").data, ("e1").data] 3

/-- C5: with graceful errors on, a failing `validate()`/`backup()` is
logged and every instance is still executed — the loop attempts all of
them and raises nothing; with graceful errors off, the loop stops at the
first failing instance, the exception propagates, and the instances
after it are never executed. -/
theorem C5_graceful_error_isolation (l : List IfaceCfg) :
    runInstances true l = ⟨l, l.filter failsInst, false⟩ ∧
    (l.any failsInst = true →
      runInstances false l = ⟨l.take (l.findIdx failsInst + 1), [], true⟩) ∧
    (l.any failsInst = false → runInstances false l = ⟨l, [], false⟩) := by
  refine ⟨runInstances_graceful l, runInstances_strict_fail l, fun h => ?_⟩
  refine runInstances_strict_ok l ?_
  rw [List.all_eq_true]
  intro x hx
  rw [Bool.not_eq_true']
  exact Bool.not_eq_true _ |>.mp (List.any_eq_false.mp h x hx)

def exampleInstances : List IfaceCfg :=
  [⟨("pkg.a.SourceA").data, true, false, false⟩,
    ⟨("pkg.b.SourceB").data, true, true, false⟩,
    ⟨("pkg.c.SourceC").data, true, false, false⟩]

theorem C5_graceful_error_isolation_witness :
    runInstances true exampleInstances =
      ⟨exampleInstances, exampleInstances.filter failsInst, false⟩ ∧
    (exampleInstances.any failsInst = true →
      runInstances false exampleInstances =
        ⟨exampleInstances.take (exampleInstances.findIdx failsInst + 1), [], true⟩) ∧
    (exampleInstances.any failsInst = false →
      runInstances false exampleInstances = ⟨exampleInstances, [], false⟩) :=
  C5_graceful_error_isolation exampleInstances

/-- C6, counterexample: when `upload` raises, the archive deletion is
never reached in either directory interface (no try/finally guards it),
and when `upload` succeeds but `os.remove` fails, the local backup
iteration raises — refuting deletion on the failure path and the
non-fatality of deletion failures. -/
theorem C6_cleanup_counterexample :
    (localBackupOne true false true).1 =
      [BStep.archiveStep, BStep.ensureDst, BStep.uploadStep] ∧
    BStep.removeArchive ∉ (localBackupOne true false true).1 ∧
    BStep.removeArchive ∉ (sshBackupOne true false true).1 ∧
    (localBackupOne false true false).2 = true := by
  decide

/-- C6 (amended): the temporary archive is deleted exactly when the
upload attempt succeeds — on the upload failure path the exception
propagates before the deletion; a failing local `os.remove` makes the
otherwise-successful backup iteration raise, while the remote `rm` of
the ssh interface has its exit status ignored, so there only an upload
failure makes the iteration raise. -/
theorem C6_cleanup_only_after_successful_upload (u r ret : Bool) :
    (u = false → BStep.removeArchive ∈ (localBackupOne u r ret).1 ∧
      BStep.removeArchive ∈ (sshBackupOne u r ret).1) ∧
    (u = true → BStep.removeArchive ∉ (localBackupOne u r ret).1 ∧
      BStep.removeArchive ∉ (sshBackupOne u r ret).1) ∧
    (localBackupOne u r ret).2 = (u || r) ∧
    (sshBackupOne u r ret).2 = u := by
  cases u <;> cases r <;> cases ret <;> decide

theorem C6_cleanup_witness :
    (false = false → BStep.removeArchive ∈ (localBackupOne false true false).1 ∧
      BStep.removeArchive ∈ (sshBackupOne false true false).1) ∧
    (false = true → BStep.removeArchive ∉ (localBackupOne false true false).1 ∧
      BStep.removeArchive ∉ (sshBackupOne false true false).1) ∧
    (localBackupOne false true false).2 = (false || true) ∧
    (sshBackupOne false true false).2 = false :=
  C6_cleanup_only_after_successful_upload false true false

/-- C7: when an enabled source's `interface` identifier does not
resolve, `run_backup` raises out of the resolution phase — the job ends
with a resolution error, not a source exception, and no instance's
`validate()` or `backup()` is ever attempted, including those whose
identifiers resolved. -/
theorem C7_unresolvable_interface_aborts
    (env : List (List Char × List (List Char))) (graceful : Bool) (cfg : JobConfig)
    (c : IfaceCfg) (e : GetClassErr) (hc : c ∈ cfg.interfaces)
    (hen : c.enabled = true) (herr : get_class env c.interface = Except.error e) :
    (run_backup env graceful cfg).1 = ⟨[], [], false⟩ ∧
    ∃ err, (run_backup env graceful cfg).2 = some err ∧
      err ≠ RunErr.sourceException := by
  have hmem : c ∈ enabledConfigs cfg.interfaces :=
    List.mem_filter.mpr ⟨hc, by simp [hen]⟩
  obtain ⟨e', he'⟩ := resolveAll_error_of_mem hmem herr
  cases hst : get_class env cfg.storage with
  | error e2 =>
    constructor
    · simp [run_backup, hst]
    · exact ⟨RunErr.storageResolve e2, by simp [run_backup, hst], by simp⟩
  | ok s =>
    constructor
    · simp [run_backup, hst, he']
    · exact ⟨RunErr.interfaceResolve e', by simp [run_backup, hst, he'], by simp⟩

def exampleEnv : List (List Char × List (List Char)) :=
  [(("backup.interfaces.storage.local").data, [("LocalStorageInterface").data])]

def exampleBadIface : IfaceCfg :=
  ⟨("backup.interfaces.directories.missing.MissingInterface").data, true, false, false⟩

def exampleCfg : JobConfig :=
  ⟨true, ("backup.interfaces.storage.local.LocalStorageInterface").data,
    [exampleBadIface]⟩

theorem C7_unresolvable_interface_aborts_witness :
    (run_backup exampleEnv true exampleCfg).1 = ⟨[], [], false⟩ ∧
    ∃ err, (run_backup exampleEnv true exampleCfg).2 = some err ∧
      err ≠ RunErr.sourceException :=
  C7_unresolvable_interface_aborts exampleEnv true exampleCfg exampleBadIface
    GetClassErr.moduleNotFound (by decide) (by decide) (by rfl)

instance (t : Timestamp) : Decidable t.Valid := by
  unfold Timestamp.Valid
  infer_instance

/-- C8, counterexample: two entries whose sort keys tie
(`"Foo.tar"` and `"foo.zip"` both have key `"foo"`) keep their
enumeration order under Python's stable sort, so the same two-element
set produces two different listings depending on the order `os.listdir`
happened to return — the listing is not determined by the entry set
alone. -/
theorem C8_tied_keys_counterexample :
    localList [("Foo.tar").data, ("foo.zip").data] ≠
      localList [("foo.zip").data, ("Foo.tar").data] ∧
    List.Perm [("Foo.tar").data, ("foo.zip").data]
      [("foo.zip").data, ("Foo.tar").data] ∧
    sortKey ("Foo.tar").data = sortKey ("foo.zip").data := by
  decide

/-- C8 (amended): the listing is always sorted descending by the
case-insensitive extension-stripped key and is a permutation of the
enumeration; and whenever the entries' sort keys are pairwise distinct,
any two enumeration orders of the same entry set produce the same
listing — determinism can fail only on tied keys, where the relative
order follows the enumeration order. -/
theorem C8_listing_deterministic_for_distinct_keys
    (files1 files2 : List (List Char)) (hperm : files1.Perm files2)
    (hnd : files1.Nodup)
    (hkeys : ∀ a ∈ files1, ∀ b ∈ files1, a ≠ b → sortKey a ≠ sortKey b) :
    List.Sorted keyGe (localList files1) ∧
    (localList files1).Perm files1 ∧
    localList files1 = localList files2 := by
  have hs1 : List.Sorted keyGe (localList files1) :=
    List.sorted_insertionSort keyGe files1
  have hs2 : List.Sorted keyGe (localList files2) :=
    List.sorted_insertionSort keyGe files2
  have hp1 : (localList files1).Perm files1 := List.perm_insertionSort keyGe files1
  have hp2 : (localList files2).Perm files2 := List.perm_insertionSort keyGe files2
  have upgrade : ∀ out : List (List Char), List.Sorted keyGe out →
      out.Perm files1 → List.Sorted keyGt out := by
    intro out hs hp
    have hnd' : out.Pairwise (· ≠ ·) := (hp.nodup_iff).mpr hnd
    refine List.Pairwise.imp_of_mem ?_ (hs.and hnd')
    intro a b ha hb hab
    have hka : sortKey a ≠ sortKey b :=
      hkeys a (hp.subset ha) b (hp.subset hb) hab.2
    rcases lexLt_trichot (sortKey a) (sortKey b) with heq | hlt | hgt
    · exact absurd heq hka
    · rw [hab.1] at hlt
      exact absurd hlt Bool.false_ne_true
    · exact hgt
  refine ⟨hs1, hp1, ?_⟩
  exact List.eq_of_perm_of_sorted (hp1.trans (hperm.trans hp2.symm))
    (upgrade _ hs1 hp1) (upgrade _ hs2 (hp2.trans hperm.symm))

theorem C8_listing_deterministic_witness :
    List.Sorted keyGe (localList [("b.tar").data, ("a.tar").data]) ∧
    (localList [("b.tar").data, ("a.tar").data]).Perm
      [("b.tar").data, ("a.tar").data] ∧
    localList [("b.tar").data, ("a.tar").data] =
      localList [("a.tar").data, ("b.tar").data] :=
  C8_listing_deterministic_for_distinct_keys
    [("b.tar").data, ("a.tar").data] [("a.tar").data, ("b.tar").data]
    (by decide) (by decide) (by decide)

/-- C9: a job whose top-level `enabled` flag is false performs no backup
at all; every instance the validate/backup loop touches comes from an
enabled source config (disabled ones are filtered out before resolution
and instantiation); and a job whose sources are all disabled finishes
without any error. -/
theorem C9_disabled_configs_skipped (env : List (List Char × List (List Char)))
    (graceful : Bool) (cfg : JobConfig) :
    (cfg.enabled = false → run_backups env graceful cfg = (⟨[], [], false⟩, none)) ∧
    (∀ c ∈ (run_backups env graceful cfg).1.attempted, c.enabled = true) ∧
    ((∀ c ∈ cfg.interfaces, c.enabled = false) → cfg.enabled = true →
      (∃ s, get_class env cfg.storage = Except.ok s) →
      run_backups env graceful cfg = (⟨[], [], false⟩, none)) := by
  refine ⟨fun h => by simp [run_backups, h], ?_, ?_⟩
  · intro c hc
    unfold run_backups at hc
    by_cases hen : cfg.enabled
    · rw [if_pos hen] at hc
      unfold run_backup at hc
      cases hst : get_class env cfg.storage with
      | error e =>
        rw [hst] at hc
        simp at hc
      | ok s =>
        rw [hst] at hc
        cases hres : resolveAll env (enabledConfigs cfg.interfaces) with
        | some e =>
          rw [hres] at hc
          simp at hc
        | none =>
          rw [hres] at hc
          have hcmem : c ∈ enabledConfigs cfg.interfaces :=
            runInstances_attempted_subset graceful (enabledConfigs cfg.interfaces) hc
          simpa using (List.mem_filter.mp hcmem).2
    · rw [if_neg hen] at hc
      simp at hc
  · rintro hall hen ⟨s, hs⟩
    have hfilter : enabledConfigs cfg.interfaces = [] := by
      unfold enabledConfigs
      rw [List.filter_eq_nil_iff]
      intro c hc
      simp [hall c hc]
    simp [run_backups, hen, run_backup, hs, hfilter, resolveAll, runInstances]

def exampleDisabledCfg : JobConfig :=
  ⟨false, ("backup.interfaces.storage.local.LocalStorageInterface").data,
    [⟨("pkg.a.SourceA").data, false, false, false⟩]⟩

theorem C9_disabled_configs_skipped_witness :
    (exampleDisabledCfg.enabled = false →
      run_backups exampleEnv true exampleDisabledCfg = (⟨[], [], false⟩, none)) ∧
    (∀ c ∈ (run_backups exampleEnv true exampleDisabledCfg).1.attempted,
      c.enabled = true) ∧
    ((∀ c ∈ exampleDisabledCfg.interfaces, c.enabled = false) →
      exampleDisabledCfg.enabled = true →
      (∃ s, get_class exampleEnv exampleDisabledCfg.storage = Except.ok s) →
      run_backups exampleEnv true exampleDisabledCfg = (⟨[], [], false⟩, none)) :=
  C9_disabled_configs_skipped exampleEnv true exampleDisabledCfg

/-- C10: backup destination names are the base, an underscore and the
fixed-width `%Y-%m-%dT%H-%M-%S` timestamp; for two backups of the same
base and extension at chronologically ordered times, the later one's
name has the strictly greater listing sort key, hence the
name-descending listing places the more recent backup first. -/
theorem C10_later_backup_sorts_first (dir base ext : List Char) (t1 t2 : Timestamp)
    (v1 : t1.Valid) (v2 : t2.Valid) (h : tsLt t1 t2) (hdot : '.' ∈ ext) :
    lexLt (sortKey (listedName dir base t1 ext))
      (sortKey (listedName dir base t2 ext)) = true ∧
    keyGt (listedName dir base t2 ext) (listedName dir base t1 ext) := by
  have hk := @backup_name_key_lt dir base ext t1 t2 v1 v2 h hdot
  exact ⟨hk, hk⟩

theorem C10_later_backup_sorts_first_witness :
    lexLt
      (sortKey (listedName ("backups/app").data ("app").data
        ⟨2024, 10, 6, 9, 24, 10⟩ (".tar.gz").data))
      (sortKey (listedName ("backups/app").data ("app").data
        ⟨2024, 10, 6, 9, 24, 11⟩ (".tar.gz").data)) = true ∧
    keyGt
      (listedName ("backups/app").data ("app").data
        ⟨2024, 10, 6, 9, 24, 11⟩ (".tar.gz").data)
      (listedName ("backups/app").data ("app").data
        ⟨2024, 10, 6, 9, 24, 10⟩ (".tar.gz").data) :=
  C10_later_backup_sorts_first ("backups/app").data ("app").data (".tar.gz").data
    ⟨2024, 10, 6, 9, 24, 10⟩ ⟨2024, 10, 6, 9, 24, 11⟩
    (by decide) (by decide) (by decide) (by decide)

end BackupProof
